import Mathlib

/-!
Verification of the KesiLiance screening engine.

The screening pipeline is embedded from `src/app/main.py` (`match_entity`,
`match_entity_csv`): score every sanction name against the query entity name,
keep the candidates whose score clears the threshold, sort by score descending
with Python's stable sort, and truncate with Python slice semantics.

The similarity scorer itself is `rapidfuzz.fuzz.WRatio`, an external library
whose source is not part of this repository; it is modelled from the
specification (section 4.1): normalization, Levenshtein base ratio, partial
(best-window) ratio, token-sort ratio, token-set ratio, and the weighted
maximum composite rounded to one decimal place.  Scores are exact rationals.
-/

namespace Screening

/-- Modelled from the spec: leading/trailing whitespace is stripped before
comparison (section 4.1 step 1).  Whitespace is Lean's `Char.isWhitespace`. -/
def strip (l : List Char) : List Char :=
  ((l.dropWhile Char.isWhitespace).reverse.dropWhile Char.isWhitespace).reverse

/-- Modelled from the spec: scoring is case-insensitive, both inputs compared
in a canonical lower case, after whitespace stripping (section 4.1 step 1). -/
def canon (s : String) : List Char :=
  strip (s.data.map Char.toLower)

/-- Levenshtein edit distance with unit insertion/deletion/substitution costs,
as named by the spec's base-ratio formula (section 4.1 step 2). -/
def lev (xs ys : List Char) : ℕ :=
  levenshtein Levenshtein.defaultCost xs ys

/-- Modelled from the spec: the base ratio
`100 * (1 - edit_distance(a,b) / max(len a, len b))` for non-empty inputs;
empty/empty gives 100 and empty/non-empty gives 0 (section 4.1 step 2). -/
def ratioQ (a b : List Char) : ℚ :=
  if a = [] ∧ b = [] then 100
  else if a = [] ∨ b = [] then 0
  else 100 * (1 - (lev a b : ℚ) / ((max a.length b.length : ℕ) : ℚ))

/-- Modelled from the spec: the best-aligned-window ratio, the best base ratio
between the shorter string and a window of its own length inside the longer
string (section 4.1 step 3, the partial ratio). -/
def windowRatio (a b : List Char) : ℚ :=
  let s := if a.length ≤ b.length then a else b
  let t := if a.length ≤ b.length then b else a
  (List.range (t.length - s.length + 1)).foldl
    (fun acc i => max acc (ratioQ s ((t.drop i).take s.length))) 0

/-- Modelled from the spec: splitting on whitespace into tokens
(section 4.1 step 4); runs of whitespace produce no empty tokens. -/
def tokens (l : List Char) : List (List Char) :=
  (l.splitOnP Char.isWhitespace).filter (fun t => !t.isEmpty)

/-- Tokens sorted lexicographically. -/
def sortTokens (ts : List (List Char)) : List (List Char) :=
  List.insertionSort (fun a b : List Char => a ≤ b) ts

/-- Tokens rejoined with single spaces. -/
def joinTokens (ts : List (List Char)) : List Char :=
  List.intercalate [' '] ts

/-- Modelled from the spec: the token-sort ratio, the base ratio between the
two strings rebuilt from their lexicographically sorted tokens
(section 4.1 step 4). -/
def tokenSortRatio (a b : List Char) : ℚ :=
  ratioQ (joinTokens (sortTokens (tokens a))) (joinTokens (sortTokens (tokens b)))

/-- Insertion into a strictly sorted list, dropping duplicates. -/
def insertDedup [LinearOrder α] (x : α) : List α → List α
  | [] => [x]
  | y :: ys => if x < y then x :: y :: ys else if x = y then y :: ys else y :: insertDedup x ys

/-- Sorted list of the distinct elements of `l`. -/
def dedupSort [LinearOrder α] (l : List α) : List α :=
  l.foldr insertDedup []

/-- Best base ratio among the pairwise comparisons of the three token-set
comparison strings: intersection plus first difference, intersection plus
second difference, and the full sorted union. -/
def setScore (s da db u : List (List Char)) : ℚ :=
  max (ratioQ (joinTokens (s ++ da)) (joinTokens (s ++ db)))
    (max (ratioQ (joinTokens (s ++ da)) (joinTokens u))
      (ratioQ (joinTokens (s ++ db)) (joinTokens u)))

/-- Modelled from the spec: the token-set ratio built from the sorted token-set
intersection, the two symmetric differences, and the full sorted-union form,
taking the best base ratio among the pairwise comparisons (section 4.1 step 5). -/
def tokenSetRatio (a b : List Char) : ℚ :=
  let tx := dedupSort (tokens a)
  let ty := dedupSort (tokens b)
  setScore (tx.filter (fun t => decide (t ∈ ty)))
    (tx.filter (fun t => decide (t ∉ ty)))
    (ty.filter (fun t => decide (t ∉ tx)))
    (dedupSort (tx ++ ty))

/-- Modelled from the spec: composite scores are rounded to one decimal place
(section 4.1 step 6). -/
def round1 (q : ℚ) : ℚ :=
  ((round (10 * q) : ℤ) : ℚ) / 10

/-- Modelled from the spec: the weighted composite scorer (the WRatio
equivalent, section 4.1 step 6).  Empty inputs are settled first (section 3);
with a length ratio below the 0.6 cutoff the partial-ratio variant weighted
0.9 joins the plain base ratio, otherwise the token-sort and token-set ratios
weighted 0.95 join it; the composite is the maximum of the weighted variants,
rounded to one decimal place. -/
def wratio (a b : String) : ℚ :=
  let x := canon a
  let y := canon b
  if x = [] ∧ y = [] then 100
  else if x = [] ∨ y = [] then 0
  else if ((min x.length y.length : ℕ) : ℚ) / ((max x.length y.length : ℕ) : ℚ) < 3/5 then
    round1 (max (ratioQ x y) (9/10 * windowRatio x y))
  else
    round1 (max (ratioQ x y) (max (19/20 * tokenSortRatio x y) (19/20 * tokenSetRatio x y)))

/-- A sanction record as queried from the database (`models.Sanction`). -/
structure Sanction where
  id : ℤ
  name : String
  country : Option String
  source : Option String
deriving DecidableEq

/-- An entity record (`models.Entity`). -/
structure Entity where
  id : ℤ
  name : String
  country : Option String
deriving DecidableEq

/-- A match result (`schemas.MatchOut`). -/
structure MatchOut where
  sanction_id : ℤ
  name : String
  source : Option String
  country : Option String
  score : ℚ
deriving DecidableEq

/-- The `MatchOut` built for sanction `s` with score `sc` (main.py line 178). -/
def mkMatch (s : Sanction) (sc : ℚ) : MatchOut :=
  ⟨s.id, s.name, s.source, s.country, sc⟩

/-- The candidate loop of `match_entity` (main.py lines 175-180): score every
sanction and append a `MatchOut` when the score clears the threshold. -/
def screenLoop (q : String) (th : ℤ) : List Sanction → List MatchOut
  | [] => []
  | s :: ss =>
    if (th : ℚ) ≤ wratio q s.name then mkMatch s (wratio q s.name) :: screenLoop q th ss
    else screenLoop q th ss

/-- Comparison used by the pipeline's stable descending sort keyed on `k`. -/
def keyGe (k : α → ℚ) (a b : α) : Prop :=
  k b ≤ k a

instance (k : α → ℚ) : DecidableRel (keyGe k) :=
  fun a b => inferInstanceAs (Decidable (k b ≤ k a))

instance (k : α → ℚ) : IsTotal α (keyGe k) :=
  ⟨fun a b => le_total (k b) (k a)⟩

instance (k : α → ℚ) : IsTrans α (keyGe k) :=
  ⟨fun _ _ _ h h2 => le_trans h2 h⟩

/-- Python's stable `list.sort(key=..., reverse=True)`: a stable sort placing
larger keys first, preserving input order among equal keys (main.py line 181).
Insertion sort realizes exactly this stable order. -/
def sortByKey (k : α → ℚ) (l : List α) : List α :=
  List.insertionSort (keyGe k) l

/-- Python's slice `l[:n]`, including the clamped negative-index case. -/
def pySlice (n : ℤ) (l : List α) : List α :=
  if 0 ≤ n then l.take n.toNat else l.take (l.length - (-n).toNat)

/-- The pure core of `match_entity` (main.py lines 173-182): loop, stable sort
by score descending, truncate to `limit` by Python slicing. -/
def matchEntity (q : String) (sanctions : List Sanction) (th lim : ℤ) : List MatchOut :=
  pySlice lim (sortByKey MatchOut.score (screenLoop q th sanctions))

/-- Error taxonomy of the endpoint: `notFound` is the 404 raised at
main.py line 172; `invalidParameter` is the spec's validation error kind
(section 7), which the source never raises. -/
inductive ApiError where
  | notFound
  | invalidParameter
deriving DecidableEq

/-- The `match_entity` endpoint (main.py lines 162-182): 404 when the entity
does not exist, otherwise the ranked list; no parameter validation occurs. -/
def matchEntityE (e : Option Entity) (sanctions : List Sanction) (th lim : ℤ) :
    Except ApiError (List MatchOut) :=
  match e with
  | none => Except.error ApiError.notFound
  | some e => Except.ok (matchEntity e.name sanctions th lim)

/-- A CSV row of `match_entity_csv` (main.py lines 200-208).  The `score`
field holds the rational value denoted by the one-decimal formatted string
`f"{score:.1f}"`, written by `fmt1`. -/
structure CsvRow where
  entity_id : ℤ
  entity_name : String
  sanction_id : ℤ
  sanction_name : String
  source : String
  country : String
  score : ℚ
deriving DecidableEq

/-- Value denoted by the one-decimal string formatting `f"{score:.1f}"`. -/
def fmt1 (q : ℚ) : ℚ :=
  round1 q

/-- The row built for sanction `s` (main.py lines 200-208). -/
def mkRow (eid : ℤ) (ename : String) (s : Sanction) (sc : ℚ) : CsvRow :=
  ⟨eid, ename, s.id, s.name, s.source.getD "", s.country.getD "", fmt1 sc⟩

/-- The candidate loop of `match_entity_csv` (main.py lines 197-208); the
threshold test uses the unformatted score. -/
def rowsLoop (eid : ℤ) (q : String) (th : ℤ) : List Sanction → List CsvRow
  | [] => []
  | s :: ss =>
    if (th : ℚ) ≤ wratio q s.name then mkRow eid q s (wratio q s.name) :: rowsLoop eid q th ss
    else rowsLoop eid q th ss

/-- The row list of `match_entity_csv` (main.py lines 195-210): loop, stable
sort by the parsed formatted score descending, truncate. -/
def matchEntityCsv (eid : ℤ) (q : String) (sanctions : List Sanction) (th lim : ℤ) :
    List CsvRow :=
  pySlice lim (sortByKey CsvRow.score (rowsLoop eid q th sanctions))

/-! ### Levenshtein distance lemmas -/

theorem lev_nil_left (ys : List Char) : lev [] ys = ys.length := by
  induction ys with
  | nil => rfl
  | cons y ys ih =>
    rw [lev] at ih ⊢
    rw [levenshtein_nil_cons]
    simp [ih]
    omega

theorem lev_nil_right (xs : List Char) : lev xs [] = xs.length := by
  induction xs with
  | nil => rfl
  | cons x xs ih =>
    rw [lev] at ih ⊢
    rw [levenshtein_cons_nil]
    simp [ih]
    omega

theorem lev_cons_cons (x y : Char) (xs ys : List Char) :
    lev (x :: xs) (y :: ys) =
      min (1 + lev xs (y :: ys))
        (min (1 + lev (x :: xs) ys) ((if x = y then 0 else 1) + lev xs ys)) := by
  rw [lev, levenshtein_cons_cons]
  rfl

theorem lev_self (xs : List Char) : lev xs xs = 0 := by
  induction xs with
  | nil => rfl
  | cons x xs ih =>
    rw [lev_cons_cons]
    simp [ih]

theorem lev_comm (xs ys : List Char) : lev xs ys = lev ys xs := by
  induction xs generalizing ys with
  | nil => rw [lev_nil_left, lev_nil_right]
  | cons x xs ihx =>
    induction ys with
    | nil => rw [lev_nil_left, lev_nil_right]
    | cons y ys ihy =>
      rw [lev_cons_cons, lev_cons_cons, ihx (y :: ys), ihy, ihx ys]
      have hxy : (if x = y then 0 else 1) = (if y = x then 0 else 1) := by
        simp [eq_comm]
      rw [hxy, min_left_comm]

theorem lev_le_max (xs ys : List Char) : lev xs ys ≤ max xs.length ys.length := by
  induction xs generalizing ys with
  | nil => rw [lev_nil_left]; omega
  | cons x xs ihx =>
    cases ys with
    | nil => rw [lev_nil_right]; simp
    | cons y ys =>
      rw [lev_cons_cons]
      have h := ihx ys
      have hsub : (if x = y then 0 else 1) ≤ 1 := by split <;> omega
      have : min (1 + lev (x :: xs) ys) ((if x = y then 0 else 1) + lev xs ys) ≤
          (if x = y then 0 else 1) + lev xs ys := min_le_right _ _
      simp only [List.length_cons]
      omega

/-! ### Base ratio lemmas -/

theorem ratioQ_self (a : List Char) : ratioQ a a = 100 := by
  rw [ratioQ]
  rcases eq_or_ne a [] with rfl | h
  · simp
  · rw [if_neg (by simp [h]), if_neg (by simp [h]), lev_self]
    simp

theorem ratioQ_comm (a b : List Char) : ratioQ a b = ratioQ b a := by
  by_cases ha : a = [] <;> by_cases hb : b = [] <;>
    simp [ratioQ, ha, hb, lev_comm a b, Nat.max_comm a.length b.length]

theorem ratioQ_nonneg (a b : List Char) : 0 ≤ ratioQ a b := by
  by_cases hab : a = [] ∧ b = []
  · simp [ratioQ, hab]
  by_cases hor : a = [] ∨ b = []
  · rw [ratioQ, if_neg hab, if_pos hor]
  · rw [ratioQ, if_neg hab, if_neg hor]
    push_neg at hor
    obtain ⟨ha, hb⟩ := hor
    have hlen : 0 < max a.length b.length := by
      have := List.length_pos.mpr ha
      omega
    have hle : (lev a b : ℚ) / ((max a.length b.length : ℕ) : ℚ) ≤ 1 := by
      rw [div_le_one (by exact_mod_cast hlen)]
      exact_mod_cast lev_le_max a b
    nlinarith

theorem ratioQ_le_100 (a b : List Char) : ratioQ a b ≤ 100 := by
  by_cases hab : a = [] ∧ b = []
  · simp [ratioQ, hab]
  by_cases hor : a = [] ∨ b = []
  · rw [ratioQ, if_neg hab, if_pos hor]
    norm_num
  · rw [ratioQ, if_neg hab, if_neg hor]
    push_neg at hor
    obtain ⟨ha, hb⟩ := hor
    have hlen : 0 < max a.length b.length := by
      have := List.length_pos.mpr ha
      omega
    have hge : 0 ≤ (lev a b : ℚ) / ((max a.length b.length : ℕ) : ℚ) := by
      apply div_nonneg <;> positivity
    nlinarith

/-! ### Window (partial) ratio lemmas -/

theorem foldl_max_bound (f : ℕ → ℚ) (hf : ∀ i, 0 ≤ f i ∧ f i ≤ 100) :
    ∀ (l : List ℕ) (acc : ℚ), 0 ≤ acc → acc ≤ 100 →
      0 ≤ l.foldl (fun a i => max a (f i)) acc ∧
        l.foldl (fun a i => max a (f i)) acc ≤ 100 := by
  intro l
  induction l with
  | nil => exact fun acc h0 h1 => ⟨h0, h1⟩
  | cons i l ih =>
    intro acc h0 h1
    simp only [List.foldl_cons]
    exact ih _ (le_max_of_le_left h0) (max_le h1 (hf i).2)

theorem windowRatio_nonneg (a b : List Char) : 0 ≤ windowRatio a b := by
  rw [windowRatio]
  exact (foldl_max_bound _ (fun i => ⟨ratioQ_nonneg _ _, ratioQ_le_100 _ _⟩) _ 0 le_rfl
    (by norm_num)).1

theorem windowRatio_le_100 (a b : List Char) : windowRatio a b ≤ 100 := by
  rw [windowRatio]
  exact (foldl_max_bound _ (fun i => ⟨ratioQ_nonneg _ _, ratioQ_le_100 _ _⟩) _ 0 le_rfl
    (by norm_num)).2

theorem windowRatio_comm (a b : List Char) : windowRatio a b = windowRatio b a := by
  rcases lt_trichotomy a.length b.length with h | h | h
  · have h1 : a.length ≤ b.length := le_of_lt h
    have h2 : ¬ b.length ≤ a.length := not_le.mpr h
    simp [windowRatio, h1, h2]
  · have h1 : a.length ≤ b.length := le_of_eq h
    have h2 : b.length ≤ a.length := le_of_eq h.symm
    simp only [windowRatio, if_pos h1, if_pos h2]
    rw [show b.length - a.length = 0 by omega, show a.length - b.length = 0 by omega]
    rw [show List.range (0 + 1) = [0] by rfl]
    simp only [List.foldl_cons, List.foldl_nil, List.drop_zero]
    rw [h, List.take_length, ← h, List.take_length, ratioQ_comm]
  · have h1 : ¬ a.length ≤ b.length := not_le.mpr h
    have h2 : b.length ≤ a.length := le_of_lt h
    simp [windowRatio, h1, h2]

/-! ### Token-sort ratio lemmas -/

theorem tokenSortRatio_comm (a b : List Char) : tokenSortRatio a b = tokenSortRatio b a := by
  rw [tokenSortRatio, tokenSortRatio, ratioQ_comm]

theorem tokenSortRatio_self (a : List Char) : tokenSortRatio a a = 100 := by
  rw [tokenSortRatio, ratioQ_self]

theorem tokenSortRatio_nonneg (a b : List Char) : 0 ≤ tokenSortRatio a b :=
  ratioQ_nonneg _ _

theorem tokenSortRatio_le_100 (a b : List Char) : tokenSortRatio a b ≤ 100 :=
  ratioQ_le_100 _ _

/-! ### Sorted deduplication lemmas -/

theorem mem_insertDedup [LinearOrder α] (x a : α) (l : List α) :
    a ∈ insertDedup x l ↔ a = x ∨ a ∈ l := by
  induction l with
  | nil => simp [insertDedup]
  | cons y ys ih =>
    rw [insertDedup]
    split
    · simp
    · split
      · next hxy =>
        subst hxy
        simp only [List.mem_cons]
        tauto
      · simp [ih, or_left_comm]

theorem sorted_insertDedup [LinearOrder α] (x : α) (l : List α)
    (h : l.Sorted (· < ·)) : (insertDedup x l).Sorted (· < ·) := by
  induction l with
  | nil => simp [insertDedup]
  | cons y ys ih =>
    rw [insertDedup]
    split
    · next hlt =>
      refine List.sorted_cons.mpr ⟨?_, h⟩
      intro b hb
      rcases List.mem_cons.mp hb with rfl | hb
      · exact hlt
      · exact lt_trans hlt (List.rel_of_sorted_cons h b hb)
    · split
      · exact h
      · next hnlt hne =>
        have hyx : y < x := by
          rcases lt_trichotomy x y with h1 | h1 | h1
          · exact absurd h1 hnlt
          · exact absurd h1 hne
          · exact h1
        refine List.sorted_cons.mpr ⟨?_, ih h.of_cons⟩
        intro b hb
        rcases (mem_insertDedup x b ys).mp hb with rfl | hb
        · exact hyx
        · exact List.rel_of_sorted_cons h b hb

theorem sorted_dedupSort [LinearOrder α] (l : List α) : (dedupSort l).Sorted (· < ·) := by
  induction l with
  | nil => simp [dedupSort]
  | cons x xs ih => exact sorted_insertDedup x _ ih

theorem mem_dedupSort [LinearOrder α] (a : α) (l : List α) :
    a ∈ dedupSort l ↔ a ∈ l := by
  induction l with
  | nil => simp [dedupSort]
  | cons x xs ih =>
    show a ∈ insertDedup x (dedupSort xs) ↔ _
    rw [mem_insertDedup, ih]
    simp

theorem sortedLt_eq_of_mem_iff [LinearOrder α] {l₁ l₂ : List α}
    (h₁ : l₁.Sorted (· < ·)) (h₂ : l₂.Sorted (· < ·))
    (hm : ∀ a, a ∈ l₁ ↔ a ∈ l₂) : l₁ = l₂ := by
  haveI : IsAntisymm α (· < ·) := ⟨fun a b hab hba => absurd hba (lt_asymm hab)⟩
  exact List.eq_of_perm_of_sorted
    ((List.perm_ext_iff_of_nodup h₁.nodup h₂.nodup).mpr hm) h₁ h₂

/-! ### Token-set ratio lemmas -/

theorem setScore_nonneg (s da db u : List (List Char)) : 0 ≤ setScore s da db u := by
  rw [setScore]
  exact le_max_of_le_left (ratioQ_nonneg _ _)

theorem setScore_le_100 (s da db u : List (List Char)) : setScore s da db u ≤ 100 := by
  rw [setScore]
  exact max_le (ratioQ_le_100 _ _) (max_le (ratioQ_le_100 _ _) (ratioQ_le_100 _ _))

theorem setScore_swap (s da db u : List (List Char)) :
    setScore s da db u = setScore s db da u := by
  rw [setScore, setScore,
    ratioQ_comm (joinTokens (s ++ da)) (joinTokens (s ++ db)),
    max_comm (ratioQ (joinTokens (s ++ da)) (joinTokens u))
      (ratioQ (joinTokens (s ++ db)) (joinTokens u))]

theorem tokenSetRatio_nonneg (a b : List Char) : 0 ≤ tokenSetRatio a b := by
  rw [tokenSetRatio]
  exact setScore_nonneg _ _ _ _

theorem tokenSetRatio_le_100 (a b : List Char) : tokenSetRatio a b ≤ 100 := by
  rw [tokenSetRatio]
  exact setScore_le_100 _ _ _ _

theorem sect_comm (tx ty : List (List Char))
    (hx : tx.Sorted (· < ·)) (hy : ty.Sorted (· < ·)) :
    tx.filter (fun t => decide (t ∈ ty)) = ty.filter (fun t => decide (t ∈ tx)) := by
  refine sortedLt_eq_of_mem_iff (List.Pairwise.filter _ hx) (List.Pairwise.filter _ hy) ?_
  intro a
  simp only [List.mem_filter, decide_eq_true_eq]
  exact and_comm

theorem tokenSetRatio_comm (a b : List Char) : tokenSetRatio a b = tokenSetRatio b a := by
  rw [tokenSetRatio, tokenSetRatio]
  have hsect := sect_comm (dedupSort (tokens a)) (dedupSort (tokens b))
    (sorted_dedupSort _) (sorted_dedupSort _)
  have hu : dedupSort (dedupSort (tokens a) ++ dedupSort (tokens b)) =
      dedupSort (dedupSort (tokens b) ++ dedupSort (tokens a)) := by
    refine sortedLt_eq_of_mem_iff (sorted_dedupSort _) (sorted_dedupSort _) ?_
    intro t
    rw [mem_dedupSort, mem_dedupSort, List.mem_append, List.mem_append, or_comm]
  rw [hsect, hu]
  exact setScore_swap _ _ _ _

/-! ### Rounding lemmas -/

theorem round1_nonneg (q : ℚ) (h : 0 ≤ q) : 0 ≤ round1 q := by
  rw [round1]
  have h1 : (0:ℤ) ≤ round (10 * q) := by
    rw [round_eq]
    exact Int.le_floor.mpr (by push_cast; linarith)
  have h2 : (0:ℚ) ≤ ((round (10 * q) : ℤ) : ℚ) := by exact_mod_cast h1
  linarith

theorem round1_le_100 (q : ℚ) (h : q ≤ 100) : round1 q ≤ 100 := by
  rw [round1]
  have h1 : round (10 * q) < 1001 := by
    rw [round_eq, Int.floor_lt]
    push_cast
    linarith
  have h2 : round (10 * q) ≤ 1000 := by omega
  have h3 : ((round (10 * q) : ℤ) : ℚ) ≤ 1000 := by exact_mod_cast h2
  linarith

theorem round1_idem (q : ℚ) : round1 (round1 q) = round1 q := by
  rw [round1, round1]
  have h : (10:ℚ) * (((round (10 * q) : ℤ) : ℚ) / 10) = ((round (10 * q) : ℤ) : ℚ) := by
    ring
  rw [h, round_intCast]

theorem round1_100 : round1 (100 : ℚ) = 100 := by
  rw [round1, show (10:ℚ) * 100 = ((1000:ℤ) : ℚ) by norm_num, round_intCast]
  norm_num

theorem round1_zero : round1 (0 : ℚ) = 0 := by
  rw [round1, mul_zero, round_zero]
  norm_num

/-! ### Composite scorer lemmas -/

theorem wratio_nonneg (a b : String) : 0 ≤ wratio a b := by
  simp only [wratio]
  split
  · norm_num
  split
  · norm_num
  split
  · exact round1_nonneg _ (le_max_of_le_left (ratioQ_nonneg _ _))
  · exact round1_nonneg _ (le_max_of_le_left (ratioQ_nonneg _ _))

theorem wratio_le_100 (a b : String) : wratio a b ≤ 100 := by
  simp only [wratio]
  split
  · norm_num
  split
  · norm_num
  split
  · refine round1_le_100 _ (max_le (ratioQ_le_100 _ _) ?_)
    have h1 := windowRatio_le_100 (canon a) (canon b)
    have h2 := windowRatio_nonneg (canon a) (canon b)
    linarith
  · refine round1_le_100 _ (max_le (ratioQ_le_100 _ _) (max_le ?_ ?_))
    · have h1 := tokenSortRatio_le_100 (canon a) (canon b)
      have h2 := tokenSortRatio_nonneg (canon a) (canon b)
      linarith
    · have h1 := tokenSetRatio_le_100 (canon a) (canon b)
      have h2 := tokenSetRatio_nonneg (canon a) (canon b)
      linarith

theorem wratio_comm (a b : String) : wratio a b = wratio b a := by
  simp only [wratio]
  by_cases ha : canon a = [] <;> by_cases hb : canon b = [] <;> simp [ha, hb]
  rw [ratioQ_comm (canon a) (canon b), windowRatio_comm (canon a) (canon b),
    tokenSortRatio_comm (canon a) (canon b), tokenSetRatio_comm (canon a) (canon b),
    min_comm (((canon a).length : ℚ)) (((canon b).length : ℚ)),
    max_comm (((canon a).length : ℚ)) (((canon b).length : ℚ))]

theorem wratio_self (a : String) : wratio a a = 100 := by
  simp only [wratio]
  by_cases h : canon a = []
  · simp [h]
  · rw [if_neg (by simp [h]), if_neg (by simp [h])]
    have hpos : 0 < (canon a).length := List.length_pos.mpr h
    have hcond : ¬ (((min (canon a).length (canon a).length : ℕ) : ℚ) /
        ((max (canon a).length (canon a).length : ℕ) : ℚ) < 3/5) := by
      rw [Nat.min_self, Nat.max_self, div_self (by positivity)]
      norm_num
    rw [if_neg hcond, ratioQ_self]
    have h1 : (19:ℚ)/20 * tokenSortRatio (canon a) (canon a) ≤ 100 := by
      have := tokenSortRatio_le_100 (canon a) (canon a)
      have := tokenSortRatio_nonneg (canon a) (canon a)
      linarith
    have h2 : (19:ℚ)/20 * tokenSetRatio (canon a) (canon a) ≤ 100 := by
      have := tokenSetRatio_le_100 (canon a) (canon a)
      have := tokenSetRatio_nonneg (canon a) (canon a)
      linarith
    rw [max_eq_left (max_le h1 h2)]
    exact round1_100

theorem round1_wratio (a b : String) : round1 (wratio a b) = wratio a b := by
  simp only [wratio]
  split
  · exact round1_100
  split
  · exact round1_zero
  split
  · exact round1_idem _
  · exact round1_idem _

/-! ### Screening loop lemmas -/

theorem screenLoop_eq (q : String) (th : ℤ) (ss : List Sanction) :
    screenLoop q th ss =
      (ss.filter (fun s => decide ((th : ℚ) ≤ wratio q s.name))).map
        (fun s => mkMatch s (wratio q s.name)) := by
  induction ss with
  | nil => rfl
  | cons s ss ih =>
    rw [screenLoop, List.filter_cons]
    by_cases h : (th : ℚ) ≤ wratio q s.name
    · rw [if_pos h, if_pos (by simpa using h), List.map_cons, ih]
    · rw [if_neg h, if_neg (by simpa using h), ih]

theorem mem_screenLoop (q : String) (th : ℤ) (ss : List Sanction) (r : MatchOut) :
    r ∈ screenLoop q th ss ↔
      ∃ s ∈ ss, (th : ℚ) ≤ wratio q s.name ∧ r = mkMatch s (wratio q s.name) := by
  rw [screenLoop_eq]
  simp only [List.mem_map, List.mem_filter, decide_eq_true_eq]
  constructor
  · rintro ⟨s, ⟨hs, hle⟩, rfl⟩
    exact ⟨s, hs, hle, rfl⟩
  · rintro ⟨s, hs, hle, rfl⟩
    exact ⟨s, ⟨hs, hle⟩, rfl⟩

theorem score_mem_screenLoop (q : String) (th : ℤ) (ss : List Sanction) (r : MatchOut)
    (h : r ∈ screenLoop q th ss) :
    (th : ℚ) ≤ r.score ∧ r.score = wratio q r.name := by
  obtain ⟨s, _, hle, rfl⟩ := (mem_screenLoop q th ss r).mp h
  exact ⟨hle, rfl⟩

/-! ### Stable sort lemmas -/

theorem perm_sortByKey (k : α → ℚ) (l : List α) : (sortByKey k l).Perm l :=
  List.perm_insertionSort _ l

theorem sorted_sortByKey (k : α → ℚ) (l : List α) : (sortByKey k l).Sorted (keyGe k) :=
  List.sorted_insertionSort _ l

theorem filter_orderedInsert (k : α → ℚ) (s : ℚ) (x : α) (l : List α) :
    (List.orderedInsert (keyGe k) x l).filter (fun a => decide (k a = s)) =
      if k x = s then x :: l.filter (fun a => decide (k a = s))
      else l.filter (fun a => decide (k a = s)) := by
  induction l with
  | nil =>
    by_cases hx : k x = s <;> simp [List.orderedInsert, hx]
  | cons y ys ih =>
    rw [List.orderedInsert]
    by_cases hxy : keyGe k x y
    · rw [if_pos hxy]
      by_cases hx : k x = s <;> simp [List.filter_cons, hx]
    · rw [if_neg hxy]
      by_cases hy : k y = s
      · have hx : ¬ k x = s := by
          intro hx
          exact hxy (le_of_eq (hy.trans hx.symm))
        simp [List.filter_cons, hy, ih, hx]
      · simp [List.filter_cons, hy, ih]

theorem filter_sortByKey (k : α → ℚ) (s : ℚ) (l : List α) :
    (sortByKey k l).filter (fun a => decide (k a = s)) =
      l.filter (fun a => decide (k a = s)) := by
  induction l with
  | nil => rfl
  | cons x xs ih =>
    show (List.orderedInsert _ x (sortByKey k xs)).filter _ = _
    rw [filter_orderedInsert, ih]
    by_cases hx : k x = s <;> simp [List.filter_cons, hx]

theorem map_orderedInsert (k : α → ℚ) (k2 : β → ℚ) (f : α → β)
    (hf : ∀ a, k2 (f a) = k a) (x : α) (l : List α) :
    (List.orderedInsert (keyGe k) x l).map f =
      List.orderedInsert (keyGe k2) (f x) (l.map f) := by
  induction l with
  | nil => simp [List.orderedInsert]
  | cons y ys ih =>
    rw [List.orderedInsert, List.map_cons, List.orderedInsert]
    have hiff : keyGe k2 (f x) (f y) ↔ keyGe k x y := by
      rw [keyGe, keyGe, hf, hf]
    by_cases hxy : keyGe k x y
    · rw [if_pos hxy, if_pos (hiff.mpr hxy)]
      simp
    · rw [if_neg hxy, if_neg (fun h => hxy (hiff.mp h)), List.map_cons, ih]

theorem map_sortByKey (k : α → ℚ) (k2 : β → ℚ) (f : α → β)
    (hf : ∀ a, k2 (f a) = k a) (l : List α) :
    (sortByKey k l).map f = sortByKey k2 (l.map f) := by
  induction l with
  | nil => rfl
  | cons x xs ih =>
    show (List.orderedInsert _ x (sortByKey k xs)).map f = _
    rw [map_orderedInsert k k2 f hf, ih]
    rfl

/-! ### Python slice lemmas -/

theorem pySlice_of_nonneg (n : ℤ) (h : 0 ≤ n) (l : List α) :
    pySlice n l = l.take n.toNat := by
  rw [pySlice, if_pos h]

theorem pySlice_map (n : ℤ) (f : α → β) (l : List α) :
    pySlice n (l.map f) = (pySlice n l).map f := by
  rw [pySlice, pySlice, List.length_map]
  split <;> rw [List.map_take]

theorem mem_pySlice (n : ℤ) (l : List α) (a : α) (h : a ∈ pySlice n l) : a ∈ l := by
  rw [pySlice] at h
  split at h <;> exact (List.take_sublist _ _).mem h

theorem pySlice_nil (n : ℤ) : pySlice n ([] : List α) = [] := by
  rw [pySlice]
  split <;> exact List.take_nil

/-! ### Endpoint helper lemmas -/

theorem screenLoop_nil_of_high_th (q : String) (th : ℤ) (ss : List Sanction)
    (h : 100 < th) : screenLoop q th ss = [] := by
  rw [screenLoop_eq]
  have hf : ss.filter (fun s => decide ((th : ℚ) ≤ wratio q s.name)) = [] := by
    refine List.filter_eq_nil_iff.mpr (fun s _ => ?_)
    simp only [decide_eq_true_eq, not_le]
    calc wratio q s.name ≤ 100 := wratio_le_100 _ _
    _ < (th : ℚ) := by exact_mod_cast h
  rw [hf]
  rfl

/-- The CSV row corresponding to a JSON match result, score carried exactly. -/
def rowOf (eid : ℤ) (ename : String) (m : MatchOut) : CsvRow :=
  ⟨eid, ename, m.sanction_id, m.name, m.source.getD "", m.country.getD "", m.score⟩

theorem rowsLoop_eq (eid : ℤ) (q : String) (th : ℤ) (ss : List Sanction) :
    rowsLoop eid q th ss = (screenLoop q th ss).map (rowOf eid q) := by
  induction ss with
  | nil => rfl
  | cons s ss ih =>
    rw [rowsLoop, screenLoop]
    by_cases h : (th : ℚ) ≤ wratio q s.name
    · rw [if_pos h, if_pos h, List.map_cons, ih]
      have hrow : mkRow eid q s (wratio q s.name) =
          rowOf eid q (mkMatch s (wratio q s.name)) := by
        rw [mkRow, rowOf, mkMatch, fmt1, round1_wratio]
      rw [hrow]
    · rw [if_neg h, if_neg h, ih]

theorem matchEntityCsv_eq (eid : ℤ) (q : String) (ss : List Sanction) (th lim : ℤ) :
    matchEntityCsv eid q ss th lim = (matchEntity q ss th lim).map (rowOf eid q) := by
  rw [matchEntityCsv, matchEntity, rowsLoop_eq,
    ← map_sortByKey MatchOut.score CsvRow.score (rowOf eid q) (fun m => rfl),
    pySlice_map]

/-! ### Claims -/

/-- C1 (counterexample): `match_entity` does not validate `threshold` or
`limit`.  With `threshold = 101` and with `limit = 0` the call on an existing
entity returns `Except.ok` with an empty result list; it does not fail with
`InvalidParameter`, contradicting the claim that the screening call fails
before any candidate is scored and returns no result list. -/
theorem match_entity_invalid_params_cex :
    matchEntityE (some ⟨1, "ab", none⟩) [⟨1, "ab", none, none⟩] 101 5 = Except.ok [] ∧
    matchEntityE (some ⟨1, "ab", none⟩) [⟨1, "ab", none, none⟩] 80 0 = Except.ok [] ∧
    matchEntityE (some ⟨1, "ab", none⟩) [⟨1, "ab", none, none⟩] 101 5 ≠
      Except.error ApiError.invalidParameter ∧
    matchEntityE (some ⟨1, "ab", none⟩) [⟨1, "ab", none, none⟩] 80 0 ≠
      Except.error ApiError.invalidParameter := by
  have h1 : matchEntity "ab" [⟨1, "ab", none, none⟩] 101 5 = [] := by
    with_unfolding_all decide
  have h2 : matchEntity "ab" [⟨1, "ab", none, none⟩] 80 0 = [] := by
    with_unfolding_all decide
  refine ⟨congrArg Except.ok h1, congrArg Except.ok h2, ?_, ?_⟩
  · show Except.ok (matchEntity "ab" [⟨1, "ab", none, none⟩] 101 5) ≠ _
    rw [h1]
    exact fun h => Except.noConfusion h
  · show Except.ok (matchEntity "ab" [⟨1, "ab", none, none⟩] 80 0) ≠ _
    rw [h2]
    exact fun h => Except.noConfusion h

/-- C1 (amended): `match_entity` performs no parameter validation.  For every
existing entity, candidate collection, threshold and limit the call returns
`Except.ok` of a result list; an out-of-range threshold (`threshold > 100`)
yields the empty list because no score exceeds 100, and `limit = 0` truncates
to the empty list. -/
theorem match_entity_no_validation (e : Entity) (ss : List Sanction) (th lim : ℤ) :
    (∃ l, matchEntityE (some e) ss th lim = Except.ok l) ∧
    (100 < th → matchEntityE (some e) ss th lim = Except.ok []) ∧
    (lim = 0 → matchEntityE (some e) ss th lim = Except.ok []) := by
  refine ⟨⟨matchEntity e.name ss th lim, rfl⟩, ?_, ?_⟩
  · intro h
    show Except.ok (matchEntity e.name ss th lim) = _
    rw [matchEntity, screenLoop_nil_of_high_th e.name th ss h]
    rw [show sortByKey MatchOut.score [] = [] from rfl, pySlice_nil]
  · intro h
    subst h
    show Except.ok (matchEntity e.name ss th 0) = _
    rw [matchEntity, pySlice_of_nonneg 0 le_rfl]
    rfl

/-- C1 (witness): the amended theorem applied at the spec's two example
invalid-parameter calls. -/
theorem match_entity_no_validation_witness :
    matchEntityE (some ⟨1, "ab", none⟩) [⟨2, "ab", none, none⟩] 101 5 = Except.ok [] ∧
    matchEntityE (some ⟨1, "ab", none⟩) [⟨2, "ab", none, none⟩] 80 0 = Except.ok [] :=
  ⟨(match_entity_no_validation ⟨1, "ab", none⟩ [⟨2, "ab", none, none⟩] 101 5).2.1
      (by norm_num),
    (match_entity_no_validation ⟨1, "ab", none⟩ [⟨2, "ab", none, none⟩] 80 0).2.2 rfl⟩

/-- C2 (counterexample): the empty-string law fails as stated.  The scorer
strips whitespace before comparison, so the non-empty string of one space
scores 100 against the empty string, not 0. -/
theorem scorer_empty_law_cex :
    ¬ ((∀ a : String, a ≠ "" → wratio a a = 100) ∧ wratio "" "" = 100 ∧
      (∀ b : String, b ≠ "" → wratio "" b = 0)) := by
  intro h
  have h2 := h.2.2 " " (by decide)
  have h3 : wratio "" " " = 100 := by with_unfolding_all decide
  rw [h3] at h2
  exact absurd h2 (by norm_num)

/-- C2 (amended): identity and empty-string laws after whitespace
normalization: `score(a, a) = 100` for every string `a` (non-empty or not),
`score("", "") = 100`, and `score("", b) = 0` for every string `b` that is
still non-empty after case folding and whitespace trimming. -/
theorem scorer_identity_empty_laws :
    (∀ a : String, wratio a a = 100) ∧ wratio "" "" = 100 ∧
    (∀ b : String, canon b ≠ [] → wratio "" b = 0) := by
  refine ⟨wratio_self, wratio_self "", ?_⟩
  intro b hb
  have hempty : canon "" = [] := rfl
  rw [wratio]
  rw [if_neg (by simp [hempty, hb]), if_pos (Or.inl hempty)]

/-- C2 (witness): the amended laws evaluated at concrete strings. -/
theorem scorer_identity_empty_laws_witness :
    wratio "Vladimir Putin" "Vladimir Putin" = 100 ∧ wratio "" "x" = 0 :=
  ⟨scorer_identity_empty_laws.1 "Vladimir Putin",
    scorer_identity_empty_laws.2.2 "x" (by decide)⟩

set_option maxRecDepth 100000 in
/-- Value of the scorer on the spec's token-reordering example: the token-sort
variant scores 100 but carries weight 0.95, and the plain base ratio is 0, so
the composite is 95. -/
theorem wratio_reorder_value : wratio "John Smith" "Smith John" = 95 := by
  with_unfolding_all decide

/-- C3 (counterexample): exact token reordering is not a perfect match:
`score("John Smith", "Smith John")` is 95, not 100. -/
theorem reorder_not_perfect_cex : wratio "John Smith" "Smith John" ≠ 100 := by
  rw [wratio_reorder_value]
  norm_num

/-- C3 (amended): exact token reordering scores 95 (a near-perfect match):
the token-sort variant reaches 100 and is weighted by 0.95, which dominates
the composite. -/
theorem reorder_token_sort_score : wratio "John Smith" "Smith John" = 95 :=
  wratio_reorder_value

/-- C4: the screening sort is a stable descending sort keyed solely on score:
it permutes the kept candidates, orders them by score descending, and within
any fixed score value the candidates keep exactly their relative order from
the input collection. -/
theorem screen_sort_stable (q : String) (ss : List Sanction) (th : ℤ) :
    (sortByKey MatchOut.score (screenLoop q th ss)).Perm (screenLoop q th ss) ∧
    (sortByKey MatchOut.score (screenLoop q th ss)).Sorted
      (fun a b : MatchOut => b.score ≤ a.score) ∧
    (∀ s : ℚ, (sortByKey MatchOut.score (screenLoop q th ss)).filter
        (fun r => decide (r.score = s)) =
      (screenLoop q th ss).filter (fun r => decide (r.score = s))) :=
  ⟨perm_sortByKey _ _, sorted_sortByKey MatchOut.score _,
    fun s => filter_sortByKey MatchOut.score s _⟩

/-- C5: the threshold filter is inclusive and exact: the kept candidates are
precisely those whose score is at least the threshold, every returned result
clears the threshold, and with threshold 100 every returned score is
exactly 100. -/
theorem threshold_filter_inclusive (q : String) (ss : List Sanction) (th lim : ℤ) :
    screenLoop q th ss =
      (ss.filter (fun s => decide ((th : ℚ) ≤ wratio q s.name))).map
        (fun s => mkMatch s (wratio q s.name)) ∧
    (∀ r ∈ matchEntity q ss th lim, (th : ℚ) ≤ r.score) ∧
    (∀ r ∈ matchEntity q ss 100 lim, r.score = 100) := by
  refine ⟨screenLoop_eq q th ss, ?_, ?_⟩
  · intro r hr
    have hmem : r ∈ screenLoop q th ss :=
      ((perm_sortByKey MatchOut.score _).mem_iff).mp (mem_pySlice lim _ r hr)
    exact (score_mem_screenLoop q th ss r hmem).1
  · intro r hr
    have hmem : r ∈ screenLoop q 100 ss :=
      ((perm_sortByKey MatchOut.score _).mem_iff).mp (mem_pySlice lim _ r hr)
    obtain ⟨hge, hscore⟩ := score_mem_screenLoop q 100 ss r hmem
    have hle : r.score ≤ 100 := hscore ▸ wratio_le_100 q r.name
    have hge100 : (100 : ℚ) ≤ r.score := by exact_mod_cast hge
    linarith

/-- C5 (witness): the threshold laws evaluated on a concrete screening call
with threshold 100 and a perfectly matching candidate. -/
theorem threshold_filter_inclusive_witness :
    (mkMatch ⟨1, "ab", none, none⟩ 100).score = 100 :=
  (threshold_filter_inclusive "ab" [⟨1, "ab", none, none⟩] 100 5).2.2
    (mkMatch ⟨1, "ab", none, none⟩ 100) (by with_unfolding_all decide)

/-- C6: limit truncation: when more candidates clear the threshold than the
limit, the result is exactly the top-`limit` prefix of the full sorted match
list and has length `limit`; otherwise the whole sorted match list is
returned. -/
theorem limit_truncation (q : String) (ss : List Sanction) (th lim : ℤ)
    (hpos : 0 < lim) :
    (lim.toNat < (sortByKey MatchOut.score (screenLoop q th ss)).length →
      matchEntity q ss th lim =
        (sortByKey MatchOut.score (screenLoop q th ss)).take lim.toNat ∧
      (matchEntity q ss th lim).length = lim.toNat) ∧
    ((sortByKey MatchOut.score (screenLoop q th ss)).length ≤ lim.toNat →
      matchEntity q ss th lim = sortByKey MatchOut.score (screenLoop q th ss)) := by
  have heq : matchEntity q ss th lim =
      (sortByKey MatchOut.score (screenLoop q th ss)).take lim.toNat := by
    rw [matchEntity, pySlice_of_nonneg lim (le_of_lt hpos)]
  constructor
  · intro hlt
    refine ⟨heq, ?_⟩
    rw [heq, List.length_take]
    omega
  · intro hle
    rw [heq, List.take_of_length_le hle]

/-- C6 (witness): a screening call with two perfect matches and limit 1
returns exactly the first element of the sorted match list. -/
theorem limit_truncation_witness :
    matchEntity "ab" [⟨1, "ab", none, none⟩, ⟨2, "ab", none, none⟩] 80 1 =
      (sortByKey MatchOut.score
        (screenLoop "ab" 80 [⟨1, "ab", none, none⟩, ⟨2, "ab", none, none⟩])).take
          ((1 : ℤ).toNat) ∧
    (matchEntity "ab" [⟨1, "ab", none, none⟩, ⟨2, "ab", none, none⟩] 80 1).length =
      (1 : ℤ).toNat :=
  (limit_truncation "ab" [⟨1, "ab", none, none⟩, ⟨2, "ab", none, none⟩] 80 1
    (by norm_num)).1 (by with_unfolding_all decide)

/-- C7: the composite score always lies in the closed interval from 0
to 100. -/
theorem score_range (a b : String) : 0 ≤ wratio a b ∧ wratio a b ≤ 100 :=
  ⟨wratio_nonneg a b, wratio_le_100 a b⟩

/-- C8: the composite scorer is symmetric in its two arguments. -/
theorem score_symmetric (a b : String) : wratio a b = wratio b a :=
  wratio_comm a b

/-- C9: the CSV rendering returns exactly the same sanctions in exactly the
same order as the JSON rendering: the sanction ids and names of the CSV rows
coincide positionally with those of the JSON results, because every composite
score is already exact at one decimal, so formatting loses nothing and both
stable sorts order identically. -/
theorem csv_json_same_order (eid : ℤ) (q : String) (ss : List Sanction) (th lim : ℤ) :
    (matchEntityCsv eid q ss th lim).map CsvRow.sanction_id =
      (matchEntity q ss th lim).map MatchOut.sanction_id ∧
    (matchEntityCsv eid q ss th lim).map CsvRow.sanction_name =
      (matchEntity q ss th lim).map MatchOut.name := by
  rw [matchEntityCsv_eq, List.map_map, List.map_map]
  exact ⟨rfl, rfl⟩

/-- C10: scoring is total and candidate traversal cannot fail: with an
existing entity the endpoint always returns `Except.ok`, the result never has
more elements than the candidate collection, and every returned element is
the scored image of some input candidate. -/
theorem scorer_total_traversal_complete (e : Entity) (ss : List Sanction) (th lim : ℤ) :
    matchEntityE (some e) ss th lim = Except.ok (matchEntity e.name ss th lim) ∧
    (matchEntity e.name ss th lim).length ≤ ss.length ∧
    (∀ r ∈ matchEntity e.name ss th lim, ∃ s ∈ ss, r = mkMatch s (wratio e.name s.name)) := by
  refine ⟨rfl, ?_, ?_⟩
  · have h1 : (matchEntity e.name ss th lim).length ≤
        (sortByKey MatchOut.score (screenLoop e.name th ss)).length := by
      rw [matchEntity, pySlice]
      split <;> (rw [List.length_take]; omega)
    have h2 : (sortByKey MatchOut.score (screenLoop e.name th ss)).length =
        (screenLoop e.name th ss).length :=
      (perm_sortByKey MatchOut.score _).length_eq
    have h3 : (screenLoop e.name th ss).length ≤ ss.length := by
      rw [screenLoop_eq, List.length_map]
      exact List.length_filter_le _ _
    omega
  · intro r hr
    have hmem : r ∈ screenLoop e.name th ss :=
      ((perm_sortByKey MatchOut.score _).mem_iff).mp (mem_pySlice lim _ r hr)
    obtain ⟨s, hs, _, rfl⟩ := (mem_screenLoop e.name th ss r).mp hmem
    exact ⟨s, hs, rfl⟩

set_option maxRecDepth 1000000 in
/-- C10 (witness): the totality theorem evaluated on the spec's end-to-end
example entity and candidates. -/
theorem scorer_total_traversal_complete_witness :
    ∃ s ∈ [Sanction.mk 1 "Vladimir V. Putin" none none,
      Sanction.mk 2 "John Smith" none none],
      mkMatch (Sanction.mk 1 "Vladimir V. Putin" none none)
          (wratio "Vladimir Putin" "Vladimir V. Putin") =
        mkMatch s (wratio "Vladimir Putin" s.name) :=
  (scorer_total_traversal_complete ⟨7, "Vladimir Putin", none⟩
    [⟨1, "Vladimir V. Putin", none, none⟩, ⟨2, "John Smith", none, none⟩] 80 5).2.2
    (mkMatch ⟨1, "Vladimir V. Putin", none, none⟩ (wratio "Vladimir Putin" "Vladimir V. Putin"))
    (by with_unfolding_all decide)

end Screening
